import Mathlib

/-!
Shallow embedding of the coordinate-system core of the plotters repository
(src/coord/numeric.rs, src/coord/category.rs, src/coord/ranged.rs).

Modelling conventions:

* Rust f64 values are modelled by exact rational arithmetic extended with the
  IEEE special values +inf, -inf and NaN (the F64 type below).  Finite rounding
  of f64 is idealised away; the special values arise only through division by
  zero, which the embedded code can actually perform, and are tracked exactly.
* Rust float-to-integer casts saturate: they truncate toward zero and clamp to
  the representable range; NaN casts to 0.  usize is modelled as 64 bits wide.
* Rust integer division and remainder truncate toward zero; they are modelled
  with Int.tdiv and Int.tmod.
* Rust loops become structurally recursive functions on a fuel argument.  The
  scale-search loop of the integer key-point generator genuinely needs fuel,
  because the source loop does not terminate when max_points = 0 and the span
  is positive; everywhere the claims use it, the fuel is ample.
* Pixel limits are pairs: Lean component .1 is the Rust field limit.0 and Lean
  component .2 is the Rust field limit.1.
-/

/-- Truncation toward zero of a rational: the rounding applied by Rust numeric
casts such as f64 to i32. -/
def qtrunc (q : ℚ) : Int := if 0 ≤ q then ⌊q⌋ else ⌈q⌉

/-- Clamp an integer into the i32 range, as Rust float-to-i32 casts do. -/
def i32clamp (n : Int) : Int := max (-(2 ^ 31)) (min (2 ^ 31 - 1) n)

/-- Model of an f64 value: an exact rational, or one of the IEEE special
values.  Finite rounding is idealised away. -/
inductive F64 : Type where
  | fin : ℚ → F64
  | pinf : F64
  | ninf : F64
  | nan : F64
deriving DecidableEq

/-- IEEE f64 division on the model.  Division of a nonzero finite value by
zero produces a signed infinity; zero by zero produces NaN. -/
def F64.div : F64 → F64 → F64
  | .fin a, .fin b =>
    if b = 0 then (if a = 0 then .nan else if 0 < a then .pinf else .ninf)
    else .fin (a / b)
  | .fin _, .pinf => .fin 0
  | .fin _, .ninf => .fin 0
  | .pinf, .fin b => if 0 ≤ b then .pinf else .ninf
  | .ninf, .fin b => if 0 ≤ b then .ninf else .pinf
  | _, _ => .nan

/-- IEEE f64 multiplication on the model.  Infinity times zero is NaN. -/
def F64.mul : F64 → F64 → F64
  | .fin a, .fin b => .fin (a * b)
  | .fin a, .pinf => if a = 0 then .nan else if 0 < a then .pinf else .ninf
  | .fin a, .ninf => if a = 0 then .nan else if 0 < a then .ninf else .pinf
  | .pinf, .fin b => if b = 0 then .nan else if 0 < b then .pinf else .ninf
  | .ninf, .fin b => if b = 0 then .nan else if 0 < b then .ninf else .pinf
  | .pinf, .pinf => .pinf
  | .pinf, .ninf => .ninf
  | .ninf, .pinf => .ninf
  | .ninf, .ninf => .pinf
  | _, _ => .nan

/-- IEEE f64 addition on the model.  Opposite infinities add to NaN. -/
def F64.add : F64 → F64 → F64
  | .fin a, .fin b => .fin (a + b)
  | .fin _, .pinf => .pinf
  | .fin _, .ninf => .ninf
  | .pinf, .fin _ => .pinf
  | .ninf, .fin _ => .ninf
  | .pinf, .pinf => .pinf
  | .ninf, .ninf => .ninf
  | _, _ => .nan

/-- f64 floor: acts on the rational of a finite value, fixes the special
values (floor of an infinity or NaN is itself). -/
def F64.floor : F64 → F64
  | .fin q => .fin (⌊q⌋ : Int)
  | x => x

/-- Rust cast of an f64 to i32: truncate toward zero and saturate; NaN casts
to 0, the infinities to the extreme i32 values. -/
def F64.toI32 : F64 → Int
  | .fin q => i32clamp (qtrunc q)
  | .pinf => 2 ^ 31 - 1
  | .ninf => -(2 ^ 31)
  | .nan => 0

/-- Rust cast of an f64 to usize (64-bit): truncate toward zero and saturate
into [0, 2^64 - 1]; NaN and negative infinity cast to 0. -/
def F64.toUsize : F64 → Nat
  | .fin q => (min (qtrunc q) (2 ^ 64 - 1)).toNat
  | .pinf => 2 ^ 64 - 1
  | .ninf => 0
  | .nan => 0

/-- Ranged::map of make_numeric_coord! (numeric.rs lines 41-49).  The
coordinate is the field pair (self.0, self.1) = (start, end); the value and
both coordinate fields are already cast to f64 (exact here).  Note the source
computes logic_length before testing the degenerate viewport, and in the
degenerate case returns the Rust field limit.1 (Lean component .2).  The final
Rust addition limit.0 + cast is returned as an unbounded integer, so an i32
overflow of that addition is visible as a result outside the i32 range. -/
def numericMap (coord : ℚ × ℚ) (v : ℚ) (limit : Int × Int) : Int :=
  let logic_length := F64.div (.fin (v - coord.1)) (.fin (coord.2 - coord.1))
  let actual_length := limit.2 - limit.1
  if actual_length = 0 then limit.2
  else
    limit.1 +
      F64.toI32 (F64.floor (F64.add (F64.mul (.fin (actual_length : ℚ)) logic_length)
        (.fin (1 / 1000))))

/-- ReversibleRanged::unmap of make_numeric_coord! (numeric.rs lines 59-69).
The source destructures the limit pair as (min, max): these are the raw
endpoints, not reordered; only the guard orders them.  The result is the raw
f64 before the final `as` cast to the coordinate's value type. -/
def numericUnmap (coord : ℚ × ℚ) (p : Int) (limit : Int × Int) : Option F64 :=
  if p < min limit.1 limit.2 ∨ max limit.1 limit.2 < p then none
  else
    let logical_offset :=
      F64.div (.fin ((p - limit.1 : Int) : ℚ)) (.fin ((limit.2 - limit.1 : Int) : ℚ))
    some (F64.add (F64.mul (.fin (coord.2 - coord.1)) logical_offset) (.fin coord.1))

/-- The integer instantiations of make_numeric_coord! (e.g. RangedCoordi32)
feed the exact integer differences through the same f64 map formula. -/
def intCoordMap (coord : Int × Int) (v : Int) (limit : Int × Int) : Int :=
  numericMap ((coord.1 : ℚ), (coord.2 : ℚ)) (v : ℚ) limit

/-- unmap of an integer instantiation with a 32-bit value type: the f64 result
is cast back with `as i32`, i.e. truncated toward zero and saturated. -/
def intCoordUnmap (coord : Int × Int) (p : Int) (limit : Int × Int) : Option Int :=
  (numericUnmap ((coord.1 : ℚ), (coord.2 : ℚ)) p limit).map F64.toI32

/-- The scale-search loop of the integer arm of gen_key_points_comp!
(numeric.rs lines 136-149), on a normalised range lo <= hi.  The casts to
usize in the source happen before the division, hence the Int.toNat followed
by Nat division.  fuel bounds the number of outer while iterations; the source
loop does not terminate when maxPoints = 0 and lo < hi, in which case the fuel
runs out and the current scale is returned. -/
def scaleLoop (lo hi : Int) (maxPoints : Nat) : Nat → Int → Int
  | 0, scale => scale
  | fuel + 1, scale =>
    if (hi - lo + scale - 1).toNat / scale.toNat > maxPoints then
      let s2 := scale * 2
      if (hi - lo + s2 - 1).toNat / s2.toNat < maxPoints then s2
      else
        let s5 := scale * 5
        if (hi - lo + s5 - 1).toNat / s5.toNat < maxPoints then s5
        else
          let s10 := scale * 10
          if (hi - lo + s10 - 1).toNat / s10.toNat < maxPoints then s10
          else scaleLoop lo hi maxPoints fuel s10
    else scale

/-- Emission loop shared by the integer key-point generator (numeric.rs lines
156-160: push left, left += scale, while left <= right) and by Rust
step_by over an inclusive index range (category.rs line 111).  fuel is chosen
at each call site large enough to cover the whole span when the step is
positive; a non-positive step (a panic of step_by in Rust) emits nothing. -/
def emitPoints (scale : Int) : Nat → Int → Int → List Int
  | 0, _, _ => []
  | fuel + 1, left, right =>
    if 0 < scale ∧ left ≤ right then left :: emitPoints scale fuel (left + scale) right
    else []

/-- Fuel given to scaleLoop: the loop multiplies the scale by ten on every
iteration that continues, so 128 iterations exceed any scale the claims
exercise by many orders of magnitude. -/
def scaleFuel : Nat := 128

/-- The integer arm of gen_key_points_comp! (numeric.rs lines 135-163),
shared by all integer instantiations (i32, u32, ..., isize).  The range is
first normalised to (min, max); Rust % is truncated remainder (Int.tmod). -/
def intKeyPoints (range : Int × Int) (maxPoints : Nat) : List Int :=
  let lo := min range.1 range.2
  let hi := max range.1 range.2
  let scale := scaleLoop lo hi maxPoints scaleFuel 1
  let left := lo + (scale - lo.tmod scale).tmod scale
  let right := hi - hi.tmod scale
  emitPoints scale ((right - left).toNat + 1) left right

/-- GroupBy decorator over an integer ranged base (numeric.rs lines 270-replicated
at 331-357): the wrapped coordinate is the (start, end) pair of the base and
the grouping factor is the second field. -/
structure GroupBy where
  base : Int × Int
  factor : Int

/-- Ranged::map for GroupBy (numeric.rs lines 337-339): delegates to the
base coordinate unchanged. -/
def GroupBy.map (g : GroupBy) (v : Int) (limit : Int × Int) : Int :=
  intCoordMap g.base v limit

/-- Ranged::range for GroupBy (numeric.rs lines 340-342): delegates to the
base coordinate unchanged. -/
def GroupBy.range (g : GroupBy) : Int × Int :=
  g.base

/-- Ranged::key_points for GroupBy (numeric.rs lines 343-356): bucket indices
are computed with Rust truncated integer division, key points of a signed
integer range coordinate over them, then each scaled back by the factor. -/
def GroupBy.key_points (g : GroupBy) (maxPoints : Nat) : List Int :=
  let fromIdx := (g.base.1 + g.factor - 1).tdiv g.factor
  let toIdx := g.base.2.tdiv g.factor
  (intKeyPoints (fromIdx, toIdx) maxPoints).map (fun x => x * g.factor)

/-- Category (category.rs lines 8-11): a display name and an ordered backing
sequence of elements. -/
structure Category (α : Type) where
  name : String
  elements : List α

/-- Category::get (category.rs lines 45-56): position of the first element
equal to the probe, as the index of a CategoryElementRef. -/
def Category.get {α : Type} [DecidableEq α] (c : Category α) (val : α) : Option Int :=
  (c.elements.findIdx? (fun x => x = val)).map (fun pos => (pos : Int))

/-- Category::range (category.rs lines 58-71): the pair of handle indices
(0, len - 1), computed in i32 so an empty category yields (0, -1) rather
than an arithmetic failure. -/
def Category.range {α : Type} (c : Category α) : Int × Int :=
  (0, (c.elements.length : Int) - 1)

/-- Ranged::map for CategoryElementsRange (category.rs lines 99-104); the
range r is the pair of its endpoint handle indices and the value is a handle
index.  The f64 quotient is cast back with `as i32`. -/
def categoryMap (r : Int × Int) (idx : Int) (limit : Int × Int) : Int :=
  let total_span : ℚ := ((r.2 - r.1 + 2 : Int) : ℚ)
  let value_span : ℚ := ((idx - r.1 + 1 : Int) : ℚ)
  i32clamp (qtrunc (((limit.2 - limit.1 : Int) : ℚ) * value_span / total_span)) + limit.1

/-- Ranged::key_points for CategoryElementsRange (category.rs lines 106-118):
the stride is an f64 expression cast to usize (so a zero maxPoints divides by
zero), then an inclusive step_by walk over the handle indices. -/
def categoryKeyPoints (r : Int × Int) (maxPoints : Nat) : List Int :=
  let intervals : ℚ := ((r.2 - r.1 : Int) : ℚ)
  let step : Nat :=
    F64.toUsize (F64.add (F64.div (.fin intervals) (.fin (maxPoints : ℚ))) (.fin 1))
  emitPoints (step : Int) ((r.2 - r.1).toNat + 1) r.1 r.2

/-- One Ranged axis as the 2D coordinate system consumes it: its map,
key_points and (for ReversibleRanged axes) unmap operations. -/
structure RangedAxis (α : Type) where
  map : α → Int × Int → Int
  key_points : Nat → List α
  unmap : Int → Int × Int → Option α

/-- RangedCoord (ranged.rs lines 36-41): two logical axes plus the fixed
pixel-space intervals. -/
structure RangedCoord (α β : Type) where
  logic_x : RangedAxis α
  logic_y : RangedAxis β
  back_x : Int × Int
  back_y : Int × Int

/-- MeshLine (ranged.rs lines 150-153): a vertical gridline at an X key point
or a horizontal gridline at a Y key point, tagged with the key point. -/
inductive MeshLine (α β : Type) : Type where
  | XMesh : (Int × Int) → (Int × Int) → α → MeshLine α β
  | YMesh : (Int × Int) → (Int × Int) → β → MeshLine α β

/-- RangedCoord::draw_mesh (ranged.rs lines 70-100).  The effects of the Rust
FnMut callback together with the early return of the ? operator are modelled
by an arbitrary monad m: the X loop runs first, then the Y loop, each calling
the callback once per key point. -/
def RangedCoord.draw_mesh {α β : Type} {m : Type → Type} [Monad m]
    (c : RangedCoord α β) (h_limit v_limit : Nat)
    (dm : MeshLine α β → m Unit) : m Unit :=
  let xkp := c.logic_x.key_points v_limit
  let ykp := c.logic_y.key_points h_limit
  (xkp.forM (fun logic_x =>
    let x := c.logic_x.map logic_x c.back_x
    dm (MeshLine.XMesh (x, c.back_y.1) (x, c.back_y.2) logic_x))) >>= fun _ =>
  ykp.forM (fun logic_y =>
    let y := c.logic_y.map logic_y c.back_y
    dm (MeshLine.YMesh (c.back_x.1, y) (c.back_x.2, y) logic_y))

/-- ReverseCoordTranslate::reverse_translate for RangedCoord (ranged.rs lines
140-147): the ? operator short-circuits to none when either unmap misses. -/
def RangedCoord.reverse_translate {α β : Type} (c : RangedCoord α β)
    (input : Int × Int) : Option (α × β) :=
  match c.logic_x.unmap input.1 c.back_x with
  | none => none
  | some x =>
    match c.logic_y.unmap input.2 c.back_y with
    | none => none
    | some y => some (x, y)

theorem qtrunc_intCast (n : Int) : qtrunc ((n : Int) : ℚ) = n := by
  unfold qtrunc
  split <;> simp

theorem i32clamp_of_bounds {n : Int} (h1 : -(2 ^ 31) ≤ n) (h2 : n ≤ 2 ^ 31 - 1) :
    i32clamp n = n := by
  unfold i32clamp
  omega

theorem i32clamp_mono {a b : Int} (h : a ≤ b) : i32clamp a ≤ i32clamp b := by
  unfold i32clamp
  omega

theorem numericMap_eq_floor (s e v : ℚ) (l0 l1 : Int) (hse : e - s ≠ 0)
    (hl : l1 - l0 ≠ 0) :
    numericMap (s, e) v (l0, l1) =
      l0 + i32clamp ⌊((l1 - l0 : Int) : ℚ) * ((v - s) / (e - s)) + 1 / 1000⌋ := by
  unfold numericMap
  simp only [hl, if_false, F64.div, hse, if_false, F64.mul, F64.add, F64.floor, F64.toI32,
    qtrunc_intCast]

theorem numericUnmap_eq (s e : ℚ) (p l0 l1 : Int)
    (h1 : min l0 l1 ≤ p) (h2 : p ≤ max l0 l1) (hl : l1 - l0 ≠ 0) :
    numericUnmap (s, e) p (l0, l1) =
      some (.fin ((e - s) * (((p - l0 : Int) : ℚ) / ((l1 - l0 : Int) : ℚ)) + s)) := by
  unfold numericUnmap
  have hg : ¬(p < min l0 l1 ∨ max l0 l1 < p) := by omega
  have hq : ((l1 - l0 : Int) : ℚ) ≠ 0 := Int.cast_ne_zero.mpr hl
  simp only [hg, if_false, F64.div, hq, if_false, F64.mul, F64.add]

theorem emitPoints_mem_bounds {scale : Int} (hs : 0 < scale) :
    ∀ (fuel : Nat) (left right x : Int),
      x ∈ emitPoints scale fuel left right → left ≤ x ∧ x ≤ right := by
  intro fuel
  induction fuel with
  | zero => intro left right x hx; simp [emitPoints] at hx
  | succ n ih =>
    intro left right x hx
    rw [emitPoints] at hx
    by_cases hc : 0 < scale ∧ left ≤ right
    · rw [if_pos hc, List.mem_cons] at hx
      rcases hx with hx | hx
      · subst hx
        exact ⟨le_refl _, hc.2⟩
      · have h2 := ih (left + scale) right x hx
        constructor
        · omega
        · exact h2.2
    · rw [if_neg hc] at hx
      simp at hx

theorem scaleLoop_pos (lo hi : Int) (maxPoints : Nat) :
    ∀ (fuel : Nat) (scale : Int), 1 ≤ scale → 1 ≤ scaleLoop lo hi maxPoints fuel scale := by
  intro fuel
  induction fuel with
  | zero => intro scale h; simpa [scaleLoop] using h
  | succ n ih =>
    intro scale h
    unfold scaleLoop
    dsimp only
    split_ifs with h1 h2 h3 h4
    · omega
    · omega
    · omega
    · exact ih (scale * 10) (by omega)
    · exact h

theorem intKeyPoints_mem {a b x : Int} {maxPoints : Nat}
    (hx : x ∈ intKeyPoints (a, b) maxPoints) :
    (min a b ≤ x) ∧ (0 ≤ max a b → x ≤ max a b) := by
  unfold intKeyPoints at hx
  set lo := min a b with hlo
  set hi := max a b with hhi
  set scale := scaleLoop lo hi maxPoints scaleFuel 1 with hscale
  have hs : 1 ≤ scale := scaleLoop_pos lo hi maxPoints scaleFuel 1 le_rfl
  have hs0 : 0 < scale := hs
  have hbounds := emitPoints_mem_bounds hs0 _ _ _ _ hx
  have hmodlt : lo.tmod scale < scale := Int.tmod_lt_of_pos lo hs0
  have hstep : 0 ≤ (scale - lo.tmod scale).tmod scale :=
    Int.tmod_nonneg scale (by omega)
  have hleft : lo ≤ lo + (scale - lo.tmod scale).tmod scale := by omega
  refine ⟨le_trans hleft hbounds.1, fun hhi0 => ?_⟩
  have hmod2 : 0 ≤ hi.tmod scale := Int.tmod_nonneg scale hhi0
  have : hi - hi.tmod scale ≤ hi := by omega
  exact le_trans hbounds.2 this

/-- C10: the integer key-point generator first normalises its range to
(min a b, max a b), so the key points computed for the range given as (a, b)
equal those computed for the range given as (b, a), for every budget. -/
theorem int_key_points_reversed_range (a b : Int) (maxPoints : Nat) :
    intKeyPoints (a, b) maxPoints = intKeyPoints (b, a) maxPoints := by
  unfold intKeyPoints
  dsimp only
  rw [min_comm a b, max_comm a b]

/-- C6 (code bug evaluation): Category::range on an empty element sequence
does not fail with an EmptyCategory error; it silently returns the handle
index pair (0, -1), whose second component is the invalid sentinel -1. -/
theorem category_range_empty_eval :
    Category.range ⟨"empty", ([] : List String)⟩ = (0, -1) ∧
    (Category.range ⟨"empty", ([] : List String)⟩).2 < 0 := by
  constructor <;> simp [Category.range]

/-- C3 (code bug evaluation): for a degenerate logical range start = end = 0
and pixel limit (1, 100), map sends the value 0 to pixel 1 (via NaN, which
casts to 0) but sends the value 1 to 1 + (2^31 - 1) (via +infinity, whose
saturating cast yields i32::MAX): the i32 addition limit.0 + i32::MAX
overflows (the result exceeds 2^31 - 1, a panic in debug builds), and the two
values land on different pixels, so the mapping is not single-point. -/
theorem numeric_map_degenerate_range_eval :
    numericMap (0, 0) 0 (1, 100) = 1 ∧
    numericMap (0, 0) 1 (1, 100) = 1 + (2 ^ 31 - 1) ∧
    2 ^ 31 - 1 < numericMap (0, 0) 1 (1, 100) := by
  refine ⟨?_, ?_, ?_⟩ <;>
    norm_num [numericMap, F64.div, F64.mul, F64.add, F64.floor, F64.toI32]

/-- C2 (code bug evaluation): key_points with a budget of zero does not
return the empty sequence outside the float generators.  The integer arm on
the degenerate range (0, 0) returns [0] (and does not terminate at all on a
positive span), and the Category implementation over three elements (handle
index range (0, 2)) returns the first element: the stride expression divides
by zero, giving +infinity, which saturates to usize::MAX. -/
theorem key_points_zero_not_empty_eval :
    intKeyPoints (0, 0) 0 = [0] ∧ categoryKeyPoints (0, 2) 0 = [0] := by
  constructor
  · decide
  · norm_num [categoryKeyPoints, F64.div, F64.add, F64.toUsize, emitPoints, qtrunc]

/-- C1: over a non-degenerate logical range, numeric map is the affine floor
projection limit.0 + floor(limit_span * (v - start)/(end - start) + 1e-3)
(whenever that floor lies in the i32 range, so the saturating cast is the
identity); it is monotone in the value for an ascending range and ascending
limit; and for a degenerate viewport limit.1 = limit.0 every value maps to
limit.1. -/
theorem numeric_map_affine_monotone_degenerate (s e v w : ℚ) (l0 l1 : Int) :
    (e - s ≠ 0 →
      -(2 ^ 31) ≤ ⌊((l1 - l0 : Int) : ℚ) * ((v - s) / (e - s)) + 1 / 1000⌋ →
      ⌊((l1 - l0 : Int) : ℚ) * ((v - s) / (e - s)) + 1 / 1000⌋ ≤ 2 ^ 31 - 1 →
      numericMap (s, e) v (l0, l1) =
        l0 + ⌊((l1 - l0 : Int) : ℚ) * ((v - s) / (e - s)) + 1 / 1000⌋) ∧
    (s < e → l0 ≤ l1 → v ≤ w →
      numericMap (s, e) v (l0, l1) ≤ numericMap (s, e) w (l0, l1)) ∧
    (l1 = l0 → numericMap (s, e) v (l0, l1) = l1) := by
  refine ⟨?_, ?_, ?_⟩
  · intro hse hlow hhigh
    by_cases hl : l1 - l0 = 0
    · have hl0 : l1 = l0 := by omega
      have hcast : ((l1 - l0 : Int) : ℚ) = 0 := by
        rw [hl]; norm_num
      rw [hcast]
      have hfloor : ⌊(0 : ℚ) * ((v - s) / (e - s)) + 1 / 1000⌋ = 0 := by
        norm_num [Int.floor_eq_iff]
      rw [hfloor]
      simp [numericMap, hl0]
    · rw [numericMap_eq_floor s e v l0 l1 hse hl,
        i32clamp_of_bounds hlow hhigh]
  · intro hs hl hvw
    by_cases hL : l1 - l0 = 0
    · have : l1 = l0 := by omega
      simp [numericMap, this]
    · have hse : e - s ≠ 0 := by intro h; linarith [sub_eq_zero.mp h]
      rw [numericMap_eq_floor s e v l0 l1 hse hL, numericMap_eq_floor s e w l0 l1 hse hL]
      apply add_le_add_left
      apply i32clamp_mono
      apply Int.floor_le_floor
      apply add_le_add_right
      have hes : (0 : ℚ) < e - s := by linarith
      have hLnn : (0 : ℚ) ≤ ((l1 - l0 : Int) : ℚ) := by
        have : (0 : Int) ≤ l1 - l0 := by omega
        exact_mod_cast this
      have ht : (v - s) / (e - s) ≤ (w - s) / (e - s) := by
        apply div_le_div_of_nonneg_right ?_ hes.le
        linarith
      exact mul_le_mul_of_nonneg_left ht hLnn
  · intro h
    simp [numericMap, h]

/-- C1 witness: concrete instance matching the repository's own unit test,
the integer coordinate 0..20 on pixel limit (0, 100) maps 5 to 25. -/
theorem numeric_map_affine_monotone_degenerate_witness :
    numericMap (0, 20) 5 (0, 100) =
      0 + ⌊((100 - 0 : Int) : ℚ) * ((5 - 0) / (20 - 0)) + 1 / 1000⌋ ∧
    numericMap (0, 20) 5 (0, 100) ≤ numericMap (0, 20) 7 (0, 100) ∧
    numericMap (0, 20) 5 (0, 0) = 0 := by
  have h25 : ⌊((100 - 0 : Int) : ℚ) * ((5 - 0) / (20 - 0)) + 1 / 1000⌋ = (25 : Int) := by
    norm_num [Int.floor_eq_iff]
  refine ⟨(numeric_map_affine_monotone_degenerate 0 20 5 7 0 100).1 (by norm_num)
      (by rw [h25]; norm_num) (by rw [h25]; norm_num),
    (numeric_map_affine_monotone_degenerate 0 20 5 7 0 100).2.1 (by norm_num) (by norm_num)
      (by norm_num),
    (numeric_map_affine_monotone_degenerate 0 20 5 7 0 0).2.2 rfl⟩

theorem id_bind_apply {α β : Type} (x : Id α) (f : α → Id β) : x >>= f = f x := rfl

theorem forM_log_modify {α γ : Type} (f : α → γ) (l : List α) (s : List γ) :
    (l.forM (fun a => (modify (fun out => out ++ [f a]) : StateM (List γ) Unit))).run s
      = ((), s ++ l.map f) := by
  induction l generalizing s with
  | nil => simp
  | cons a t ih => simp [List.forM_cons, StateT.run_bind, StateT.run_modify, ih]

/-- C4: draw_mesh computes the X key points with budget v_limit and the Y key
points with budget h_limit, and calls the callback once per X key point with
a vertical line spanning the full Y pixel extent at that key point's mapped
pixel, then once per Y key point with a horizontal line spanning the full X
pixel extent; witnessed by a callback logging each invocation in order. -/
theorem draw_mesh_trace {α β : Type} (c : RangedCoord α β) (h_limit v_limit : Nat) :
    (RangedCoord.draw_mesh c h_limit v_limit
        (fun line => (modify (fun out => out ++ [line]) :
          StateM (List (MeshLine α β)) Unit))).run [] =
      ((), ((c.logic_x.key_points v_limit).map (fun lx =>
              MeshLine.XMesh (c.logic_x.map lx c.back_x, c.back_y.1)
                (c.logic_x.map lx c.back_x, c.back_y.2) lx)
        ++ (c.logic_y.key_points h_limit).map (fun ly =>
              MeshLine.YMesh (c.back_x.1, c.logic_y.map ly c.back_y)
                (c.back_x.2, c.logic_y.map ly c.back_y) ly))) := by
  unfold RangedCoord.draw_mesh
  dsimp only
  rw [StateT.run_bind]
  rw [forM_log_modify (fun lx =>
      MeshLine.XMesh (c.logic_x.map lx c.back_x, c.back_y.1)
        (c.logic_x.map lx c.back_x, c.back_y.2) lx)]
  rw [id_bind_apply]
  dsimp only
  rw [forM_log_modify (fun ly =>
      MeshLine.YMesh (c.back_x.1, c.logic_y.map ly c.back_y)
        (c.back_x.2, c.logic_y.map ly c.back_y) ly)]
  simp

/-- C5: reverse_translate returns none exactly when either axis's unmap
returns none for its pixel component, and otherwise returns the pair of the
two unmapped values; for a numeric axis, unmap returns none exactly when the
pixel lies outside [min limit, max limit]. -/
theorem reverse_translate_none_iff {α β : Type} (c : RangedCoord α β) (input : Int × Int) :
    (c.reverse_translate input = none ↔
      c.logic_x.unmap input.1 c.back_x = none ∨ c.logic_y.unmap input.2 c.back_y = none) ∧
    (∀ (a : α) (b : β), c.logic_x.unmap input.1 c.back_x = some a →
      c.logic_y.unmap input.2 c.back_y = some b →
      c.reverse_translate input = some (a, b)) ∧
    (∀ (s e : ℚ) (p : Int) (limit : Int × Int),
      numericUnmap (s, e) p limit = none ↔
        p < min limit.1 limit.2 ∨ max limit.1 limit.2 < p) := by
  refine ⟨?_, ?_, ?_⟩
  · unfold RangedCoord.reverse_translate
    rcases hx : c.logic_x.unmap input.1 c.back_x with _ | x
    · simp
    · rcases hy : c.logic_y.unmap input.2 c.back_y with _ | y <;> simp
  · intro a b ha hb
    unfold RangedCoord.reverse_translate
    rw [ha, hb]
  · intro s e p limit
    unfold numericUnmap
    by_cases h : p < min limit.1 limit.2 ∨ max limit.1 limit.2 < p
    · rw [if_pos h]
      simpa using h
    · rw [if_neg h]
      simpa using h

/-- C5 witness: a concrete two-axis coordinate system whose unmaps hit, so
reverse_translate returns the promised pair. -/
theorem reverse_translate_none_iff_witness :
    RangedCoord.reverse_translate
      (⟨⟨fun v _ => v, fun _ => [], fun p _ => some p⟩,
        ⟨fun v _ => v, fun _ => [], fun p _ => some p⟩,
        (0, 100), (0, 50)⟩ : RangedCoord Int Int) (5, 7) = some (5, 7) :=
  (reverse_translate_none_iff
    (⟨⟨fun v _ => v, fun _ => [], fun p _ => some p⟩,
      ⟨fun v _ => v, fun _ => [], fun p _ => some p⟩,
      (0, 100), (0, 50)⟩ : RangedCoord Int Int) (5, 7)).2.1 5 7 rfl rfl

/-- C7: the category map built from Category::range over a length-len backing
sequence places the handle of index i at limit.0 plus the truncation of
limit_span * (i+1)/(len+1), i.e. len+1 equal virtual slots with half-slot
margins (whenever the truncated value is i32-representable); and in the
concrete category with elements A, B, C and pixel limit (0, 80), get finds B
at handle index 1, the three handles map to 20, 40 and 60, B's pixel lies
strictly between A's and C's, and no handle's pixel is exactly 0 or 80. -/
theorem category_map_slots {α : Type} (c : Category α) (i l0 l1 : Int) :
    (-(2 ^ 31) ≤ qtrunc (((l1 - l0 : Int) : ℚ) * ((i : ℚ) + 1) / ((c.elements.length : ℚ) + 1)) →
     qtrunc (((l1 - l0 : Int) : ℚ) * ((i : ℚ) + 1) / ((c.elements.length : ℚ) + 1)) ≤ 2 ^ 31 - 1 →
     categoryMap (Category.range c) i (l0, l1) =
       l0 + qtrunc (((l1 - l0 : Int) : ℚ) * ((i : ℚ) + 1) / ((c.elements.length : ℚ) + 1))) ∧
    (Category.get ⟨"cat", ["A", "B", "C"]⟩ "B" = some 1 ∧
     categoryMap (Category.range ⟨"cat", ["A", "B", "C"]⟩) 0 (0, 80) = 20 ∧
     categoryMap (Category.range ⟨"cat", ["A", "B", "C"]⟩) 1 (0, 80) = 40 ∧
     categoryMap (Category.range ⟨"cat", ["A", "B", "C"]⟩) 2 (0, 80) = 60 ∧
     categoryMap (Category.range ⟨"cat", ["A", "B", "C"]⟩) 0 (0, 80) <
       categoryMap (Category.range ⟨"cat", ["A", "B", "C"]⟩) 1 (0, 80) ∧
     categoryMap (Category.range ⟨"cat", ["A", "B", "C"]⟩) 1 (0, 80) <
       categoryMap (Category.range ⟨"cat", ["A", "B", "C"]⟩) 2 (0, 80) ∧
     (∀ j : Int, j = 0 ∨ j = 1 ∨ j = 2 →
       categoryMap (Category.range ⟨"cat", ["A", "B", "C"]⟩) j (0, 80) ≠ 0 ∧
       categoryMap (Category.range ⟨"cat", ["A", "B", "C"]⟩) j (0, 80) ≠ 80)) := by
  have heval : ∀ j : Int, ∀ t : Int,
      (((80 - 0 : Int) : ℚ) * ((j - 0 + 1 : Int) : ℚ) / (((2 : Int) - 0 + 2 : Int) : ℚ)) = (t : ℚ) →
      categoryMap (Category.range ⟨"cat", ["A", "B", "C"]⟩) j (0, 80) =
        i32clamp t := by
    intro j t ht
    unfold categoryMap Category.range
    dsimp only
    simp only [List.length_cons, List.length_nil]
    norm_num only
    norm_num only at ht
    rw [ht, qtrunc_intCast]
    ring
  constructor
  · intro hlow hhigh
    unfold categoryMap Category.range
    dsimp only
    have htot : (((c.elements.length : Int) - 1 - 0 + 2 : Int) : ℚ) = (c.elements.length : ℚ) + 1 := by
      push_cast
      ring
    have hval : ((i - 0 + 1 : Int) : ℚ) = (i : ℚ) + 1 := by
      push_cast
      ring
    rw [htot, hval, i32clamp_of_bounds hlow hhigh]
    ring
  · have h20 := heval 0 20 (by norm_num)
    have h40 := heval 1 40 (by norm_num)
    have h60 := heval 2 60 (by norm_num)
    have e20 : i32clamp 20 = 20 := by norm_num [i32clamp]
    have e40 : i32clamp 40 = 40 := by norm_num [i32clamp]
    have e60 : i32clamp 60 = 60 := by norm_num [i32clamp]
    rw [e20] at h20
    rw [e40] at h40
    rw [e60] at h60
    refine ⟨?_, h20, h40, h60, by rw [h20, h40]; norm_num, by rw [h40, h60]; norm_num, ?_⟩
    · simp [Category.get, List.findIdx?]
    · intro j hj
      rcases hj with rfl | rfl | rfl
      · rw [h20]; norm_num
      · rw [h40]; norm_num
      · rw [h60]; norm_num

/-- C7 witness: the slot formula applied to the concrete three-element
category at handle index 1 with pixel limit (0, 80). -/
theorem category_map_slots_witness :
    categoryMap (Category.range ⟨"cat", ["A", "B", "C"]⟩) 1 (0, 80) =
      0 + qtrunc (((80 - 0 : Int) : ℚ) * ((1 : Int) + 1) /
        (((["A", "B", "C"] : List String).length : ℚ) + 1)) := by
  exact (category_map_slots ⟨"cat", ["A", "B", "C"]⟩ 1 0 80).1
    (by norm_num [qtrunc]) (by norm_num [qtrunc])

/-- C8 (amended): for the float numeric coordinates, whose unmap returns the
f64 value unchanged, the round trip unmap of map of v returns Some of a value
within one pixel's worth ((end - start)/limit_span) of quantization error of
v, for an ascending range, an ascending i32-representable pixel limit, and v
inside the range. -/
theorem numeric_unmap_map_roundtrip (s e v : ℚ) (l0 l1 : Int)
    (hs : s < e) (hl : l0 < l1) (hL : l1 - l0 ≤ 2 ^ 31 - 1)
    (hv1 : s ≤ v) (hv2 : v < e) :
    ∃ u : ℚ, numericUnmap (s, e) (numericMap (s, e) v (l0, l1)) (l0, l1) = some (.fin u)
      ∧ |u - v| ≤ (e - s) / ((l1 - l0 : Int) : ℚ) := by
  have hes : (0 : ℚ) < e - s := by linarith
  have hse : e - s ≠ 0 := ne_of_gt hes
  have hlne : l1 - l0 ≠ 0 := by omega
  have hLq : (0 : ℚ) < ((l1 - l0 : Int) : ℚ) := by
    exact_mod_cast (show (0 : Int) < l1 - l0 by omega)
  have hLne : ((l1 - l0 : Int) : ℚ) ≠ 0 := ne_of_gt hLq
  obtain ⟨t, htdef⟩ : ∃ t : ℚ, t = (v - s) / (e - s) := ⟨_, rfl⟩
  have hveq : v = s + t * (e - s) := by
    rw [htdef]
    field_simp
  have ht0 : 0 ≤ t := by
    rw [htdef]
    exact div_nonneg (by linarith) hes.le
  have ht1 : t < 1 := by
    rw [htdef]
    exact (div_lt_one hes).mpr (by linarith)
  obtain ⟨k, hkdef⟩ : ∃ k : Int, k = ⌊((l1 - l0 : Int) : ℚ) * t + 1 / 1000⌋ := ⟨_, rfl⟩
  have hfl : (k : ℚ) ≤ ((l1 - l0 : Int) : ℚ) * t + 1 / 1000 := by
    rw [hkdef]
    exact Int.floor_le _
  have hfu : ((l1 - l0 : Int) : ℚ) * t + 1 / 1000 < (k : ℚ) + 1 := by
    rw [hkdef]
    exact Int.lt_floor_add_one _
  have hmul0 : 0 ≤ ((l1 - l0 : Int) : ℚ) * t := mul_nonneg hLq.le ht0
  have hmul1 : ((l1 - l0 : Int) : ℚ) * t < ((l1 - l0 : Int) : ℚ) := by
    calc ((l1 - l0 : Int) : ℚ) * t < ((l1 - l0 : Int) : ℚ) * 1 :=
          mul_lt_mul_of_pos_left ht1 hLq
      _ = ((l1 - l0 : Int) : ℚ) := mul_one _
  have hk0 : 0 ≤ k := by
    rw [hkdef]
    apply Int.le_floor.mpr
    rw [Int.cast_zero]
    linarith
  have hkL : k ≤ l1 - l0 := by
    have hxlt : ((l1 - l0 : Int) : ℚ) * t + 1 / 1000 < ((l1 - l0 + 1 : Int) : ℚ) := by
      push_cast
      push_cast at hmul1
      linarith
    rw [hkdef]
    have hfloor := Int.floor_lt.mpr hxlt
    omega
  have hmap : numericMap (s, e) v (l0, l1) = l0 + k := by
    rw [numericMap_eq_floor s e v l0 l1 hse hlne, ← htdef, ← hkdef]
    congr 1
    exact i32clamp_of_bounds (by omega) (by omega)
  have h1 : min l0 l1 ≤ l0 + k := by
    rw [min_eq_left hl.le]
    omega
  have h2 : l0 + k ≤ max l0 l1 := by
    rw [max_eq_right hl.le]
    omega
  have hcast : ((l0 + k - l0 : Int) : ℚ) = (k : ℚ) := by
    push_cast
    ring
  refine ⟨(e - s) * ((k : ℚ) / ((l1 - l0 : Int) : ℚ)) + s, ?_, ?_⟩
  · rw [hmap, numericUnmap_eq s e (l0 + k) l0 l1 h1 h2 hlne, hcast]
  · have hd1 : (k : ℚ) - ((l1 - l0 : Int) : ℚ) * t ≤ 1 := by linarith
    have hd2 : -1 ≤ (k : ℚ) - ((l1 - l0 : Int) : ℚ) * t := by linarith
    have habs : |(k : ℚ) - ((l1 - l0 : Int) : ℚ) * t| ≤ 1 := abs_le.mpr ⟨hd2, hd1⟩
    have hLcast : ((l1 - l0 : Int) : ℚ) = (l1 : ℚ) - (l0 : ℚ) := by
      push_cast
      ring
    have hLne2 : (l1 : ℚ) - (l0 : ℚ) ≠ 0 := by
      rw [← hLcast]
      exact hLne
    have hrw : (e - s) * ((k : ℚ) / ((l1 - l0 : Int) : ℚ)) + s - v
        = (e - s) * ((k : ℚ) - ((l1 - l0 : Int) : ℚ) * t) / ((l1 - l0 : Int) : ℚ) := by
      rw [hveq, hLcast]
      field_simp
      ring
    rw [hrw, abs_div, abs_mul, abs_of_pos hes, abs_of_pos hLq]
    apply div_le_div_of_nonneg_right ?_ hLq.le
    calc (e - s) * |(k : ℚ) - ((l1 - l0 : Int) : ℚ) * t|
        ≤ (e - s) * 1 := mul_le_mul_of_nonneg_left habs hes.le
      _ = e - s := mul_one _

/-- C8 witness: the float coordinate 0..20 on pixel limit (0, 100) round
trips the value 5 within one pixel's worth of error. -/
theorem numeric_unmap_map_roundtrip_witness :
    ∃ u : ℚ, numericUnmap (0, 20) (numericMap (0, 20) 5 (0, 100)) (0, 100) = some (.fin u)
      ∧ |u - 5| ≤ (20 - 0) / ((100 - 0 : Int) : ℚ) :=
  numeric_unmap_map_roundtrip 0 20 5 0 100 (by norm_num) (by norm_num) (by norm_num)
    (by norm_num) (by norm_num)

/-- C8 counterexample: for the integer coordinate 0..10 on pixel limit
(0, 333), the value 7 maps to pixel 233, but unmap casts the f64 result
2330/333 back to the integer value type, truncating it to Some 6: a whole
value unit of error, more than one pixel's worth (10/333); in pixel space the
returned value 6 maps to pixel 199, 34 pixels from the input pixel 233. -/
theorem int_unmap_map_roundtrip_cex :
    intCoordMap (0, 10) 7 (0, 333) = 233 ∧
    intCoordUnmap (0, 10) 233 (0, 333) = some 6 ∧
    ¬(|(6 : ℚ) - 7| ≤ ((10 : ℚ) - 0) / ((333 - 0 : Int) : ℚ)) ∧
    intCoordMap (0, 10) 6 (0, 333) = 199 := by
  refine ⟨?_, ?_, ?_, ?_⟩
  · unfold intCoordMap
    rw [numericMap_eq_floor _ _ _ _ _ (by norm_num) (by norm_num)]
    have hf : ⌊(((333 : Int) - (0 : Int) : Int) : ℚ) * ((((7 : Int) : ℚ) - ((0 : Int) : ℚ)) /
        (((10 : Int) : ℚ) - ((0 : Int) : ℚ))) + 1 / 1000⌋ = (233 : Int) := by
      norm_num [Int.floor_eq_iff]
    rw [hf]
    norm_num [i32clamp]
  · unfold intCoordUnmap
    rw [numericUnmap_eq _ _ _ _ _ (by norm_num) (by norm_num) (by norm_num)]
    have hfl6 : ⌊(2330 / 333 : ℚ)⌋ = (6 : Int) := by
      norm_num [Int.floor_eq_iff]
    simp only [Option.map_some']
    norm_num [F64.toI32, qtrunc, i32clamp, hfl6]
  · rw [show |(6 : ℚ) - 7| = 1 by norm_num]
    norm_num
  · unfold intCoordMap
    rw [numericMap_eq_floor _ _ _ _ _ (by norm_num) (by norm_num)]
    have hf : ⌊(((333 : Int) - (0 : Int) : Int) : ℚ) * ((((6 : Int) : ℚ) - ((0 : Int) : ℚ)) /
        (((10 : Int) : ℚ) - ((0 : Int) : ℚ))) + 1 / 1000⌋ = (199 : Int) := by
      norm_num [Int.floor_eq_iff]
    rw [hf]
    norm_num [i32clamp]

/-- C9 counterexample: GroupBy over the integer base range [-20, -10) with
factor 7 returns the key point -7, a multiple of 7 that lies outside the base
range (it exceeds even the closed upper end -10): the bucket bounds are
computed with truncating division, which rounds toward zero on negatives. -/
theorem groupby_key_points_outside_range_cex :
    (-7 : Int) ∈ GroupBy.key_points ⟨(-20, -10), 7⟩ 10 ∧
    ¬((-20 : Int) ≤ -7 ∧ (-7 : Int) ≤ -10) := by
  constructor
  · decide
  · decide

/-- C9 (amended): GroupBy's map and range delegate unchanged to the base
coordinate; every key point is a multiple of the grouping factor; when the
base range starts at 0 with a nonnegative end, every key point lies within
the closed base range (for negative bounds this can fail, see the
counterexample); and in particular GroupBy over [0, 100) with factor 7
returns only multiples of 7 inside [0, 100), for every budget. -/
theorem groupby_key_points_spec (g : GroupBy) (maxPoints : Nat) :
    (∀ (v : Int) (limit : Int × Int), GroupBy.map g v limit = intCoordMap g.base v limit) ∧
    (GroupBy.range g = g.base) ∧
    (∀ x ∈ GroupBy.key_points g maxPoints, g.factor ∣ x) ∧
    (g.base.1 = 0 → 0 ≤ g.base.2 → 1 ≤ g.factor →
      ∀ x ∈ GroupBy.key_points g maxPoints, 0 ≤ x ∧ x ≤ g.base.2) ∧
    (∀ x ∈ GroupBy.key_points ⟨(0, 100), 7⟩ maxPoints, (7 : Int) ∣ x ∧ 0 ≤ x ∧ x < 100) := by
  refine ⟨fun v limit => rfl, rfl, ?_, ?_, ?_⟩
  · intro x hx
    unfold GroupBy.key_points at hx
    obtain ⟨y, hy, rfl⟩ := List.mem_map.mp hx
    exact dvd_mul_left g.factor y
  · intro h0 hend hfac x hx
    unfold GroupBy.key_points at hx
    rw [h0] at hx
    have hfrom : ((0 : Int) + g.factor - 1).tdiv g.factor = 0 := by
      rw [Int.tdiv_eq_ediv (by omega) (by omega)]
      apply Int.ediv_eq_zero_of_lt (by omega) (by omega)
    have hq0 : 0 ≤ g.base.2.tdiv g.factor := by
      rw [Int.tdiv_eq_ediv hend (by omega)]
      exact Int.ediv_nonneg hend (by omega)
    have hqmul : g.base.2.tdiv g.factor * g.factor ≤ g.base.2 := by
      rw [Int.tdiv_eq_ediv hend (by omega), mul_comm]
      have hmod := Int.emod_nonneg g.base.2 (show g.factor ≠ 0 by omega)
      have hdm := Int.ediv_add_emod g.base.2 g.factor
      omega
    rw [hfrom] at hx
    obtain ⟨y, hy, rfl⟩ := List.mem_map.mp hx
    have hb := intKeyPoints_mem hy
    rw [min_eq_left hq0, max_eq_right hq0] at hb
    have hy0 : 0 ≤ y := hb.1
    have hyq : y ≤ g.base.2.tdiv g.factor := hb.2 hq0
    constructor
    · exact mul_nonneg hy0 (by omega)
    · calc y * g.factor ≤ g.base.2.tdiv g.factor * g.factor :=
            mul_le_mul_of_nonneg_right hyq (by omega)
        _ ≤ g.base.2 := hqmul
  · intro x hx
    unfold GroupBy.key_points at hx
    simp only [show ((0 : Int) + 7 - 1).tdiv 7 = 0 from by decide,
      show ((100 : Int)).tdiv 7 = 14 from by decide] at hx
    obtain ⟨y, hy, rfl⟩ := List.mem_map.mp hx
    have hb := intKeyPoints_mem hy
    rw [min_eq_left (by norm_num : (0 : Int) ≤ 14), max_eq_right (by norm_num : (0 : Int) ≤ 14)] at hb
    have hy0 : 0 ≤ y := hb.1
    have hy14 : y ≤ 14 := hb.2 (by norm_num)
    refine ⟨dvd_mul_left 7 y, by omega, by omega⟩

/-- C9 witness: the key points of GroupBy over [0, 100) with factor 7 and
budget 5 contain 35, which the theorem certifies to be a nonnegative multiple
of 7 below 100 and inside the closed base range. -/
theorem groupby_key_points_spec_witness :
    ((7 : Int) ∣ 35) ∧ ((0 : Int) ≤ 35 ∧ (35 : Int) ≤ 100) ∧
    ((7 : Int) ∣ 35 ∧ (0 : Int) ≤ 35 ∧ (35 : Int) < 100) :=
  ⟨(groupby_key_points_spec ⟨(0, 100), 7⟩ 5).2.2.1 35 (by decide),
   (groupby_key_points_spec ⟨(0, 100), 7⟩ 5).2.2.2.1 rfl (by norm_num) (by norm_num) 35
     (by decide),
   (groupby_key_points_spec ⟨(0, 100), 7⟩ 5).2.2.2.2 35 (by decide)⟩
